import Mathlib

/-!
# Verification of the unified-diff engine of `wswcli` (`cmd/patchvendor.go`)

This file is a shallow embedding of the line-based diff engine in
`cmd/patchvendor.go`: the matcher `findNextMatchingLine`, the diff builder
`computeLineDiff`, the hunk assembler `generateHunks`, the header-path
normalizer `extractVendorPath` and the renderer `generateUnifiedDiff`.
Go slices of strings are modelled as `List String`, Go string splitting and
joining by structurally recursive Lean functions with the same semantics,
and the main diff loop by a well-founded recursion whose measure is the
total number of unconsumed lines.  All index arithmetic in the Go code is
over non-negative `int` values, so it is modelled with `Nat` (in particular
Go's `max(0, x-3)` becomes truncated subtraction `x - 3`).
-/

/-- Embeds the `DiffOperation` struct of `cmd/patchvendor.go`:
`Type` is one of `"equal"`, `"delete"`, `"insert"`; the counts are the
number of lines the operation covers on each side and `lines` holds the
covered lines themselves. -/
structure DiffOperation where
  type : String
  sourceStart : Nat
  sourceCount : Nat
  patchStart : Nat
  patchCount : Nat
  lines : List String
deriving DecidableEq, Repr

/-- Length of the longest common prefix of two line sequences; this is the
number of iterations of the equal-scanning loop at the top of
`computeLineDiff`'s main loop. -/
def commonPrefixLen : List String → List String → Nat
  | x :: xs, y :: ys => if x = y then commonPrefixLen xs ys + 1 else 0
  | _, _ => 0

/-- Embeds the inner loop of `findNextMatchingLine`: scan the patched-side
window for the first index `j` with `j < fuel` (the 50-line lookahead bound)
whose line equals `x`.  Returns `none` when no such index exists. -/
def scanPatch (x : String) : Nat → List String → Option Nat
  | _, [] => none
  | 0, _ :: _ => none
  | fuel + 1, y :: ys =>
    if x = y then some 0 else (scanPatch x fuel ys).map (· + 1)

/-- Embeds the outer loop of `findNextMatchingLine`: for each source offset
`i` below the lookahead bound, scan the patched window; return the first
pair found. -/
def scanSource (p : List String) : Nat → List String → Option (Nat × Nat)
  | _, [] => none
  | 0, _ :: _ => none
  | fuel + 1, x :: xs =>
    match scanPatch x 50 p with
    | some j => some (0, j)
    | none => (scanSource p fuel xs).map (fun ij => (ij.1 + 1, ij.2))

/-- Embeds `findNextMatchingLine` of `cmd/patchvendor.go`: nested scan with
`maxLookAhead = 50`; if no common line is found within the window, both
remaining windows are consumed entirely. -/
def findNextMatchingLine (sourceLines patchedLines : List String) : Nat × Nat :=
  match scanSource patchedLines 50 sourceLines with
  | some ij => ij
  | none => (sourceLines.length, patchedLines.length)

lemma scanPatch_isSome_bounds (x : String) :
    ∀ fuel p j, scanPatch x fuel p = some j →
      j < fuel ∧ j < p.length ∧ p.getD j "" = x := by
  intro fuel
  induction fuel with
  | zero => intro p j h; cases p <;> simp [scanPatch] at h
  | succ n ih =>
    intro p j h
    cases p with
    | nil => simp [scanPatch] at h
    | cons y ys =>
      simp only [scanPatch] at h
      by_cases hxy : x = y
      · simp [hxy] at h
        subst h
        simp [hxy.symm]
      · simp [hxy] at h
        obtain ⟨j', hj', rfl⟩ := h
        obtain ⟨h1, h2, h3⟩ := ih ys j' hj'
        refine ⟨by omega, by simpa using h2, by simpa using h3⟩

lemma scanPatch_none (x : String) :
    ∀ fuel p, scanPatch x fuel p = none →
      ∀ j, j < fuel → j < p.length → p.getD j "" ≠ x := by
  intro fuel
  induction fuel with
  | zero => intro p _ j hj; omega
  | succ n ih =>
    intro p h j hj hjp
    cases p with
    | nil => simp at hjp
    | cons y ys =>
      simp only [scanPatch] at h
      by_cases hxy : x = y
      · simp [hxy] at h
      · simp [hxy] at h
        cases j with
        | zero => simpa using fun hyx => hxy hyx.symm
        | succ j' =>
          have := ih ys h j' (by omega) (by simpa using hjp)
          simpa using this

lemma scanPatch_least (x : String) :
    ∀ fuel p j, scanPatch x fuel p = some j →
      ∀ j', j' < j → p.getD j' "" ≠ x := by
  intro fuel
  induction fuel with
  | zero => intro p j h; cases p <;> simp [scanPatch] at h
  | succ n ih =>
    intro p j h j' hj'
    cases p with
    | nil => simp [scanPatch] at h
    | cons y ys =>
      simp only [scanPatch] at h
      by_cases hxy : x = y
      · simp [hxy] at h; omega
      · simp [hxy] at h
        obtain ⟨k, hk, rfl⟩ := h
        cases j' with
        | zero => simpa using fun hyx => hxy hyx.symm
        | succ j'' =>
          have := ih ys k hk j'' (by omega)
          simpa using this

lemma scanPatch_complete (x : String) :
    ∀ fuel p j, j < fuel → j < p.length → p.getD j "" = x →
      ∃ j', scanPatch x fuel p = some j' ∧ j' ≤ j := by
  intro fuel
  induction fuel with
  | zero => intro p j hj; omega
  | succ n ih =>
    intro p j hj hjp hget
    cases p with
    | nil => simp at hjp
    | cons y ys =>
      by_cases hxy : x = y
      · exact ⟨0, by simp [scanPatch, hxy], by omega⟩
      · cases j with
        | zero => simp at hget; exact absurd hget.symm hxy
        | succ j' =>
          obtain ⟨k, hk, hkle⟩ := ih ys j' (by omega) (by simpa using hjp) (by simpa using hget)
          exact ⟨k + 1, by simp [scanPatch, hxy, hk], by omega⟩

lemma scanSource_isSome_bounds (p : List String) :
    ∀ fuel s i j, scanSource p fuel s = some (i, j) →
      i < fuel ∧ i < s.length ∧ scanPatch (s.getD i "") 50 p = some j := by
  intro fuel
  induction fuel with
  | zero => intro s i j h; cases s <;> simp [scanSource] at h
  | succ n ih =>
    intro s i j h
    cases s with
    | nil => simp [scanSource] at h
    | cons x xs =>
      simp only [scanSource] at h
      cases hsp : scanPatch x 50 p with
      | some j0 =>
        rw [hsp] at h
        simp at h
        obtain ⟨rfl, rfl⟩ := h
        simpa using hsp
      | none =>
        rw [hsp] at h
        cases hrec : scanSource p n xs with
        | none => rw [hrec] at h; simp at h
        | some ab =>
          obtain ⟨a, b⟩ := ab
          rw [hrec] at h
          simp at h
          obtain ⟨ha, hb⟩ := h
          subst ha; subst hb
          obtain ⟨h1, h2, h3⟩ := ih xs a b hrec
          refine ⟨by omega, by simp; omega, by simpa using h3⟩

lemma scanSource_least (p : List String) :
    ∀ fuel s i j, scanSource p fuel s = some (i, j) →
      ∀ i', i' < i → scanPatch (s.getD i' "") 50 p = none := by
  intro fuel
  induction fuel with
  | zero => intro s i j h; cases s <;> simp [scanSource] at h
  | succ n ih =>
    intro s i j h i' hi'
    cases s with
    | nil => simp [scanSource] at h
    | cons x xs =>
      simp only [scanSource] at h
      cases hsp : scanPatch x 50 p with
      | some j0 =>
        rw [hsp] at h
        simp at h
        omega
      | none =>
        rw [hsp] at h
        cases hrec : scanSource p n xs with
        | none => rw [hrec] at h; simp at h
        | some ab =>
          obtain ⟨a, b⟩ := ab
          rw [hrec] at h
          simp at h
          obtain ⟨ha, hb⟩ := h
          subst ha; subst hb
          cases i' with
          | zero => simpa using hsp
          | succ i'' =>
            have := ih xs a b hrec i'' (by omega)
            simpa using this

lemma scanSource_none (p : List String) :
    ∀ fuel s, scanSource p fuel s = none →
      ∀ i, i < fuel → i < s.length → scanPatch (s.getD i "") 50 p = none := by
  intro fuel
  induction fuel with
  | zero => intro s _ i hi; omega
  | succ n ih =>
    intro s h i hi his
    cases s with
    | nil => simp at his
    | cons x xs =>
      simp only [scanSource] at h
      cases hsp : scanPatch x 50 p with
      | some j0 => rw [hsp] at h; simp at h
      | none =>
        rw [hsp] at h
        simp at h
        cases i with
        | zero => simpa using hsp
        | succ i' =>
          have := ih xs h i' (by omega) (by simpa using his)
          simpa using this

lemma scanSource_complete (p : List String) :
    ∀ fuel s i j, i < fuel → i < s.length → scanPatch (s.getD i "") 50 p = some j →
      ∃ ij, scanSource p fuel s = some ij := by
  intro fuel
  induction fuel with
  | zero => intro s i j hi; omega
  | succ n ih =>
    intro s i j hi his hsp
    cases s with
    | nil => simp at his
    | cons x xs =>
      cases hx : scanPatch x 50 p with
      | some j0 => exact ⟨(0, j0), by simp [scanSource, hx]⟩
      | none =>
        cases i with
        | zero => simp at hsp; rw [hsp] at hx; cases hx
        | succ i' =>
          obtain ⟨ij, hij⟩ := ih xs i' j (by omega) (by simpa using his) (by simpa using hsp)
          exact ⟨(ij.1 + 1, ij.2), by simp [scanSource, hx, hij]⟩

/-- The offsets returned by `findNextMatchingLine` never exceed the window
lengths. -/
lemma findNextMatchingLine_le (s p : List String) :
    (findNextMatchingLine s p).1 ≤ s.length ∧ (findNextMatchingLine s p).2 ≤ p.length := by
  cases h : scanSource p 50 s with
  | none =>
    have hfnl : findNextMatchingLine s p = (s.length, p.length) := by
      unfold findNextMatchingLine; rw [h]
    rw [hfnl]
    exact ⟨le_refl _, le_refl _⟩
  | some ij =>
    obtain ⟨i, j⟩ := ij
    have hfnl : findNextMatchingLine s p = (i, j) := by
      unfold findNextMatchingLine; rw [h]
    obtain ⟨_, h2, h3⟩ := scanSource_isSome_bounds p 50 s i j h
    obtain ⟨_, h5, _⟩ := scanPatch_isSome_bounds _ 50 p j h3
    rw [hfnl]
    exact ⟨Nat.le_of_lt h2, Nat.le_of_lt h5⟩

/-- The mismatch state of `computeLineDiff`'s main loop: at least one window
is non-empty, and if both are non-empty their first lines differ (the
preceding equal-scan guarantees this). -/
def mismatchState (s p : List String) : Prop :=
  ¬(s = [] ∧ p = []) ∧ (s ≠ [] → p ≠ [] → s.head? ≠ p.head?)

instance (s p : List String) : Decidable (mismatchState s p) := by
  unfold mismatchState; infer_instance

/-- In the mismatch state the matcher makes strict progress: consuming the
returned offsets strictly decreases the total number of unconsumed lines.
In particular `findNextMatchingLine` never returns `(0, 0)` there. -/
lemma findNextMatchingLine_progress (s p : List String) (h : mismatchState s p) :
    (s.length - (findNextMatchingLine s p).1) + (p.length - (findNextMatchingLine s p).2)
      < s.length + p.length := by
  obtain ⟨hne, hhd⟩ := h
  cases hscan : scanSource p 50 s with
  | none =>
    have hfnl : findNextMatchingLine s p = (s.length, p.length) := by
      unfold findNextMatchingLine; rw [hscan]
    rw [hfnl]
    have hor : 0 < s.length ∨ 0 < p.length := by
      by_cases hs : s = []
      · right
        have hp : p ≠ [] := fun hp => hne ⟨hs, hp⟩
        exact List.length_pos.mpr hp
      · left; exact List.length_pos.mpr hs
    omega
  | some ij =>
    obtain ⟨i, j⟩ := ij
    have hfnl : findNextMatchingLine s p = (i, j) := by
      unfold findNextMatchingLine; rw [hscan]
    obtain ⟨_, hi, hsp⟩ := scanSource_isSome_bounds p 50 s i j hscan
    obtain ⟨_, hj, hget⟩ := scanPatch_isSome_bounds _ 50 p j hsp
    rw [hfnl]
    have hij : 0 < i + j := by
      by_contra hc
      push_neg at hc
      have hi0 : i = 0 := by omega
      have hj0 : j = 0 := by omega
      subst hi0; subst hj0
      cases s with
      | nil => simp at hi
      | cons a as =>
        cases p with
        | nil => simp at hj
        | cons b bs =>
          have := hhd (by simp) (by simp)
          simp at this hget
          first
          | exact this hget
          | exact this hget.symm
    omega

lemma commonPrefixLen_le_left : ∀ s p : List String, commonPrefixLen s p ≤ s.length := by
  intro s
  induction s with
  | nil => intro p; cases p <;> simp [commonPrefixLen]
  | cons x xs ih =>
    intro p
    cases p with
    | nil => simp [commonPrefixLen]
    | cons y ys =>
      by_cases hxy : x = y
      · simp only [commonPrefixLen, if_pos hxy, List.length_cons]
        exact Nat.succ_le_succ (ih ys)
      · simp [commonPrefixLen, hxy]

lemma commonPrefixLen_le_right : ∀ s p : List String, commonPrefixLen s p ≤ p.length := by
  intro s
  induction s with
  | nil => intro p; cases p <;> simp [commonPrefixLen]
  | cons x xs ih =>
    intro p
    cases p with
    | nil => simp [commonPrefixLen]
    | cons y ys =>
      by_cases hxy : x = y
      · simp only [commonPrefixLen, if_pos hxy, List.length_cons]
        exact Nat.succ_le_succ (ih ys)
      · simp [commonPrefixLen, hxy]

/-- After dropping the common prefix, the remaining windows cannot both
start with the same line. -/
lemma commonPrefixLen_zero_head_ne (s p : List String) (h : commonPrefixLen s p = 0)
    (hs : s ≠ []) (hp : p ≠ []) : s.head? ≠ p.head? := by
  cases s with
  | nil => exact absurd rfl hs
  | cons x xs =>
    cases p with
    | nil => exact absurd rfl hp
    | cons y ys =>
      by_cases hxy : x = y
      · simp [commonPrefixLen, hxy] at h
      · simpa using hxy

/-- One round of `computeLineDiff`'s loop strictly shrinks the total number
of unconsumed lines (the equal-scan consumes `commonPrefixLen` lines on both
sides and the matcher offsets consume the rest). -/
lemma computeLineDiff_measure_lt (s p : List String)
    (hne' : ¬(s.drop (commonPrefixLen s p) = [] ∧ p.drop (commonPrefixLen s p) = [])) :
    (s.length - commonPrefixLen s p -
        (findNextMatchingLine (s.drop (commonPrefixLen s p)) (p.drop (commonPrefixLen s p))).1) +
      (p.length - commonPrefixLen s p -
        (findNextMatchingLine (s.drop (commonPrefixLen s p)) (p.drop (commonPrefixLen s p))).2)
      < s.length + p.length := by
  have hk := commonPrefixLen_le_left s p
  have hk' := commonPrefixLen_le_right s p
  by_cases h0 : commonPrefixLen s p = 0
  · rw [h0] at hne' ⊢
    simp only [List.drop_zero] at hne' ⊢
    have hm := findNextMatchingLine_progress s p
      ⟨hne', commonPrefixLen_zero_head_ne s p h0⟩
    omega
  · have h1 : 0 < commonPrefixLen s p := Nat.pos_of_ne_zero h0
    have h2 : 0 < s.length := by omega
    have h3 : 0 < p.length := by omega
    omega

/-- Embeds the main loop of `computeLineDiff` of `cmd/patchvendor.go`.
`sourceIdx`/`patchIdx` are the absolute cursor positions and `s`/`p` the
windows of lines not yet consumed.  Each round scans the common prefix
(emitting one `equal` operation when non-trivial), then asks the matcher how
many lines to consume as a `delete` and an `insert` operation. -/
def computeLineDiffAux (sourceIdx patchIdx : Nat) (s p : List String) : List DiffOperation :=
  if s = [] ∧ p = [] then []
  else
    let k := commonPrefixLen s p
    let equalLines := s.take k
    let eqOps : List DiffOperation :=
      if 0 < k then
        [{ type := "equal", sourceStart := sourceIdx, sourceCount := equalLines.length,
           patchStart := patchIdx, patchCount := equalLines.length, lines := equalLines }]
      else []
    let s' := s.drop k
    let p' := p.drop k
    if s' = [] ∧ p' = [] then eqOps
    else
      let m := findNextMatchingLine s' p'
      let deletedLines := s'.take m.1
      let insertedLines := p'.take m.2
      let delOps : List DiffOperation :=
        if 0 < m.1 then
          [{ type := "delete", sourceStart := sourceIdx + k, sourceCount := deletedLines.length,
             patchStart := patchIdx + k, patchCount := 0, lines := deletedLines }]
        else []
      let insOps : List DiffOperation :=
        if 0 < m.2 then
          [{ type := "insert", sourceStart := sourceIdx + k + m.1, sourceCount := 0,
             patchStart := patchIdx + k, patchCount := insertedLines.length,
             lines := insertedLines }]
        else []
      eqOps ++ delOps ++ insOps ++
        computeLineDiffAux (sourceIdx + k + m.1) (patchIdx + k + m.2) (s'.drop m.1) (p'.drop m.2)
termination_by s.length + p.length
decreasing_by
  all_goals
    simp only [List.length_drop]
    rename_i hne hne'
    exact computeLineDiff_measure_lt s p hne'

/-- Embeds `computeLineDiff` of `cmd/patchvendor.go`. -/
def computeLineDiff (sourceLines patchedLines : List String) : List DiffOperation :=
  computeLineDiffAux 0 0 sourceLines patchedLines

/-- Fuel-indexed twin of `computeLineDiffAux` with the identical loop body,
recursing structurally on `fuel`; `computeLineDiffAux_eq_fuel` proves it
agrees with `computeLineDiffAux` whenever the fuel covers the number of
unconsumed lines.  It exists so that concrete runs of the diff engine can be
evaluated by the kernel. -/
def computeLineDiffFuel : Nat → Nat → Nat → List String → List String → List DiffOperation
  | 0, _, _, _, _ => []
  | fuel + 1, sourceIdx, patchIdx, s, p =>
    if s = [] ∧ p = [] then []
    else
      let k := commonPrefixLen s p
      let equalLines := s.take k
      let eqOps : List DiffOperation :=
        if 0 < k then
          [{ type := "equal", sourceStart := sourceIdx, sourceCount := equalLines.length,
             patchStart := patchIdx, patchCount := equalLines.length, lines := equalLines }]
        else []
      let s' := s.drop k
      let p' := p.drop k
      if s' = [] ∧ p' = [] then eqOps
      else
        let m := findNextMatchingLine s' p'
        let deletedLines := s'.take m.1
        let insertedLines := p'.take m.2
        let delOps : List DiffOperation :=
          if 0 < m.1 then
            [{ type := "delete", sourceStart := sourceIdx + k, sourceCount := deletedLines.length,
               patchStart := patchIdx + k, patchCount := 0, lines := deletedLines }]
          else []
        let insOps : List DiffOperation :=
          if 0 < m.2 then
            [{ type := "insert", sourceStart := sourceIdx + k + m.1, sourceCount := 0,
               patchStart := patchIdx + k, patchCount := insertedLines.length,
               lines := insertedLines }]
          else []
        eqOps ++ delOps ++ insOps ++
          computeLineDiffFuel fuel (sourceIdx + k + m.1) (patchIdx + k + m.2) (s'.drop m.1) (p'.drop m.2)

lemma computeLineDiffAux_eq_fuel :
    ∀ fuel sourceIdx patchIdx s p, s.length + p.length ≤ fuel →
      computeLineDiffFuel fuel sourceIdx patchIdx s p = computeLineDiffAux sourceIdx patchIdx s p := by
  intro fuel
  induction fuel with
  | zero =>
    intro si pi s p hlen
    have hs : s = [] := by cases s with | nil => rfl | cons a as => simp at hlen
    have hp : p = [] := by cases p with | nil => rfl | cons a as => simp at hlen
    subst hs; subst hp
    rw [computeLineDiffAux]
    simp [computeLineDiffFuel]
  | succ n ih =>
    intro si pi s p hlen
    rw [computeLineDiffAux]
    simp only [computeLineDiffFuel]
    by_cases h1 : s = [] ∧ p = []
    · simp only [if_pos h1]
    · simp only [if_neg h1]
      by_cases h2 : s.drop (commonPrefixLen s p) = [] ∧ p.drop (commonPrefixLen s p) = []
      · simp only [if_pos h2]
      · simp only [if_neg h2]
        have hlt := computeLineDiff_measure_lt s p h2
        have hrec := ih (si + commonPrefixLen s p +
            (findNextMatchingLine (s.drop (commonPrefixLen s p)) (p.drop (commonPrefixLen s p))).1)
          (pi + commonPrefixLen s p +
            (findNextMatchingLine (s.drop (commonPrefixLen s p)) (p.drop (commonPrefixLen s p))).2)
          ((s.drop (commonPrefixLen s p)).drop
            (findNextMatchingLine (s.drop (commonPrefixLen s p)) (p.drop (commonPrefixLen s p))).1)
          ((p.drop (commonPrefixLen s p)).drop
            (findNextMatchingLine (s.drop (commonPrefixLen s p)) (p.drop (commonPrefixLen s p))).2)
          (by simp only [List.length_drop]; omega)
        rw [hrec]

/-- `computeLineDiff` can be evaluated through its fuel-indexed twin. -/
lemma computeLineDiff_eval (sourceLines patchedLines : List String) :
    computeLineDiff sourceLines patchedLines =
      computeLineDiffFuel (sourceLines.length + patchedLines.length) 0 0 sourceLines patchedLines :=
  (computeLineDiffAux_eq_fuel _ 0 0 sourceLines patchedLines le_rfl).symm

/-- The source-side lines of an operation list: the lines of all `equal`
and `delete` operations, in order. -/
def sourceSideLines : List DiffOperation → List String
  | [] => []
  | op :: rest =>
    (if op.type = "equal" ∨ op.type = "delete" then op.lines else []) ++ sourceSideLines rest

/-- The patch-side lines of an operation list: the lines of all `equal`
and `insert` operations, in order. -/
def patchSideLines : List DiffOperation → List String
  | [] => []
  | op :: rest =>
    (if op.type = "equal" ∨ op.type = "insert" then op.lines else []) ++ patchSideLines rest

lemma sourceSideLines_nil : sourceSideLines [] = [] := rfl

lemma patchSideLines_nil : patchSideLines [] = [] := rfl

lemma sourceSideLines_cons_equal (a b c d : Nat) (ls : List String) (rest : List DiffOperation) :
    sourceSideLines ({ type := "equal", sourceStart := a, sourceCount := b,
                       patchStart := c, patchCount := d, lines := ls } :: rest) =
      ls ++ sourceSideLines rest := by
  simp [sourceSideLines]

lemma sourceSideLines_cons_delete (a b c d : Nat) (ls : List String) (rest : List DiffOperation) :
    sourceSideLines ({ type := "delete", sourceStart := a, sourceCount := b,
                       patchStart := c, patchCount := d, lines := ls } :: rest) =
      ls ++ sourceSideLines rest := by
  simp [sourceSideLines]

lemma sourceSideLines_cons_insert (a b c d : Nat) (ls : List String) (rest : List DiffOperation) :
    sourceSideLines ({ type := "insert", sourceStart := a, sourceCount := b,
                       patchStart := c, patchCount := d, lines := ls } :: rest) =
      sourceSideLines rest := by
  simp only [sourceSideLines]
  rw [if_neg (by decide)]
  rfl

lemma patchSideLines_cons_equal (a b c d : Nat) (ls : List String) (rest : List DiffOperation) :
    patchSideLines ({ type := "equal", sourceStart := a, sourceCount := b,
                      patchStart := c, patchCount := d, lines := ls } :: rest) =
      ls ++ patchSideLines rest := by
  simp [patchSideLines]

lemma patchSideLines_cons_insert (a b c d : Nat) (ls : List String) (rest : List DiffOperation) :
    patchSideLines ({ type := "insert", sourceStart := a, sourceCount := b,
                      patchStart := c, patchCount := d, lines := ls } :: rest) =
      ls ++ patchSideLines rest := by
  simp [patchSideLines]

lemma patchSideLines_cons_delete (a b c d : Nat) (ls : List String) (rest : List DiffOperation) :
    patchSideLines ({ type := "delete", sourceStart := a, sourceCount := b,
                      patchStart := c, patchCount := d, lines := ls } :: rest) =
      patchSideLines rest := by
  simp only [patchSideLines]
  rw [if_neg (by decide)]
  rfl

lemma sourceSideLines_append (l1 l2 : List DiffOperation) :
    sourceSideLines (l1 ++ l2) = sourceSideLines l1 ++ sourceSideLines l2 := by
  induction l1 with
  | nil => simp [sourceSideLines]
  | cons op rest ih => simp [sourceSideLines, ih, List.append_assoc]

lemma patchSideLines_append (l1 l2 : List DiffOperation) :
    patchSideLines (l1 ++ l2) = patchSideLines l1 ++ patchSideLines l2 := by
  induction l1 with
  | nil => simp [patchSideLines]
  | cons op rest ih => simp [patchSideLines, ih, List.append_assoc]

lemma commonPrefixLen_take_eq :
    ∀ s p : List String, s.take (commonPrefixLen s p) = p.take (commonPrefixLen s p) := by
  intro s
  induction s with
  | nil => intro p; cases p <;> simp [commonPrefixLen]
  | cons x xs ih =>
    intro p
    cases p with
    | nil => simp [commonPrefixLen]
    | cons y ys =>
      by_cases hxy : x = y
      · have hstep : commonPrefixLen (x :: xs) (y :: ys) = commonPrefixLen xs ys + 1 := by
          simp [commonPrefixLen, hxy]
        rw [hstep, List.take_succ_cons, List.take_succ_cons, ih ys, hxy]
      · simp [commonPrefixLen, hxy]

lemma computeLineDiffFuel_reconstruct :
    ∀ fuel sourceIdx patchIdx s p, s.length + p.length ≤ fuel →
      sourceSideLines (computeLineDiffFuel fuel sourceIdx patchIdx s p) = s ∧
      patchSideLines (computeLineDiffFuel fuel sourceIdx patchIdx s p) = p := by
  intro fuel
  induction fuel with
  | zero =>
    intro si pi s p hlen
    have hs : s = [] := by cases s with | nil => rfl | cons a as => simp at hlen
    have hp : p = [] := by cases p with | nil => rfl | cons a as => simp at hlen
    subst hs; subst hp
    simp [computeLineDiffFuel, sourceSideLines, patchSideLines]
  | succ n ih =>
    intro si pi s p hlen
    simp only [computeLineDiffFuel]
    by_cases h1 : s = [] ∧ p = []
    · obtain ⟨rfl, rfl⟩ := h1
      simp [sourceSideLines, patchSideLines]
    · simp only [if_neg h1]
      by_cases h2 : s.drop (commonPrefixLen s p) = [] ∧ p.drop (commonPrefixLen s p) = []
      · simp only [if_pos h2]
        have hslen : s.length ≤ commonPrefixLen s p := by
          have := h2.1
          rw [List.drop_eq_nil_iff] at this
          exact this
        have hplen : p.length ≤ commonPrefixLen s p := by
          have := h2.2
          rw [List.drop_eq_nil_iff] at this
          exact this
        have hstake : s.take (commonPrefixLen s p) = s := List.take_of_length_le hslen
        have hptake : p.take (commonPrefixLen s p) = p := List.take_of_length_le hplen
        by_cases hk : 0 < commonPrefixLen s p
        · simp only [if_pos hk]
          constructor
          · rw [sourceSideLines, sourceSideLines]
            rw [if_pos (Or.inl rfl)]
            simpa using hstake
          · rw [patchSideLines, patchSideLines]
            rw [if_pos (Or.inl rfl)]
            have : s.take (commonPrefixLen s p) = p := by
              rw [commonPrefixLen_take_eq s p]; exact hptake
            simpa using this
        · exfalso
          have hk0 : commonPrefixLen s p = 0 := by omega
          rw [hk0] at h2
          simp only [List.drop_zero] at h2
          exact h1 h2
      · simp only [if_neg h2]
        have hlt := computeLineDiff_measure_lt s p h2
        set k := commonPrefixLen s p with hk
        set m := findNextMatchingLine (s.drop k) (p.drop k) with hm
        obtain ⟨ihs, ihp⟩ := ih (si + k + m.1) (pi + k + m.2)
          ((s.drop k).drop m.1) ((p.drop k).drop m.2)
          (by simp only [List.length_drop]; omega)
        have hA : sourceSideLines (if 0 < k then
            [{ type := "equal", sourceStart := si, sourceCount := (s.take k).length,
               patchStart := pi, patchCount := (s.take k).length, lines := s.take k }] else [])
            = s.take k := by
          by_cases hk0 : 0 < k
          · rw [if_pos hk0, sourceSideLines_cons_equal, sourceSideLines_nil, List.append_nil]
          · rw [if_neg hk0, sourceSideLines_nil]
            have hz : k = 0 := by omega
            rw [hz, List.take_zero]
        have hB : sourceSideLines (if 0 < m.1 then
            [{ type := "delete", sourceStart := si + k, sourceCount := ((s.drop k).take m.1).length,
               patchStart := pi + k, patchCount := 0, lines := (s.drop k).take m.1 }] else [])
            = (s.drop k).take m.1 := by
          by_cases hm1 : 0 < m.1
          · rw [if_pos hm1, sourceSideLines_cons_delete, sourceSideLines_nil, List.append_nil]
          · rw [if_neg hm1, sourceSideLines_nil]
            have hz : m.1 = 0 := by omega
            rw [hz, List.take_zero]
        have hC : sourceSideLines (if 0 < m.2 then
            [{ type := "insert", sourceStart := si + k + m.1, sourceCount := 0,
               patchStart := pi + k, patchCount := ((p.drop k).take m.2).length,
               lines := (p.drop k).take m.2 }] else [])
            = [] := by
          by_cases hm2 : 0 < m.2
          · rw [if_pos hm2, sourceSideLines_cons_insert, sourceSideLines_nil]
          · rw [if_neg hm2, sourceSideLines_nil]
        have hA' : patchSideLines (if 0 < k then
            [{ type := "equal", sourceStart := si, sourceCount := (s.take k).length,
               patchStart := pi, patchCount := (s.take k).length, lines := s.take k }] else [])
            = p.take k := by
          have htk : s.take k = p.take k := by
            rw [hk]; exact commonPrefixLen_take_eq s p
          by_cases hk0 : 0 < k
          · rw [if_pos hk0, patchSideLines_cons_equal, patchSideLines_nil, List.append_nil, htk]
          · rw [if_neg hk0, patchSideLines_nil]
            have hz : k = 0 := by omega
            rw [hz, List.take_zero]
        have hB' : patchSideLines (if 0 < m.1 then
            [{ type := "delete", sourceStart := si + k, sourceCount := ((s.drop k).take m.1).length,
               patchStart := pi + k, patchCount := 0, lines := (s.drop k).take m.1 }] else [])
            = [] := by
          by_cases hm1 : 0 < m.1
          · rw [if_pos hm1, patchSideLines_cons_delete, patchSideLines_nil]
          · rw [if_neg hm1, patchSideLines_nil]
        have hC' : patchSideLines (if 0 < m.2 then
            [{ type := "insert", sourceStart := si + k + m.1, sourceCount := 0,
               patchStart := pi + k, patchCount := ((p.drop k).take m.2).length,
               lines := (p.drop k).take m.2 }] else [])
            = (p.drop k).take m.2 := by
          by_cases hm2 : 0 < m.2
          · rw [if_pos hm2, patchSideLines_cons_insert, patchSideLines_nil, List.append_nil]
          · rw [if_neg hm2, patchSideLines_nil]
            have hz : m.2 = 0 := by omega
            rw [hz, List.take_zero]
        constructor
        · rw [sourceSideLines_append, sourceSideLines_append, sourceSideLines_append,
            ihs, hA, hB, hC]
          simp [List.append_assoc, List.take_append_drop]
        · rw [patchSideLines_append, patchSideLines_append, patchSideLines_append,
            ihp, hA', hB', hC']
          simp [List.append_assoc, List.take_append_drop]


/-- C1: the operation list of `computeLineDiff` reconstructs both inputs:
the `equal`/`delete` lines concatenate to the source sequence and the
`equal`/`insert` lines concatenate to the patched sequence. -/
theorem computeLineDiff_reconstructs (sourceLines patchedLines : List String) :
    sourceSideLines (computeLineDiff sourceLines patchedLines) = sourceLines ∧
    patchSideLines (computeLineDiff sourceLines patchedLines) = patchedLines := by
  rw [computeLineDiff_eval]
  exact computeLineDiffFuel_reconstruct _ 0 0 _ _ le_rfl

/-- Well-formedness of a single operation as produced by `computeLineDiff`:
the kind is one of the three strings, the counts agree with the stored
lines, the off-side count is zero, and at least one line is covered. -/
def wfOp (op : DiffOperation) : Prop :=
  (op.type = "equal" ∧ op.sourceCount = op.lines.length ∧ op.patchCount = op.lines.length ∧
    1 ≤ op.lines.length) ∨
  (op.type = "delete" ∧ op.sourceCount = op.lines.length ∧ op.patchCount = 0 ∧
    1 ≤ op.lines.length) ∨
  (op.type = "insert" ∧ op.sourceCount = 0 ∧ op.patchCount = op.lines.length ∧
    1 ≤ op.lines.length)

/-- Stream invariant of the operation lists produced by `computeLineDiff`:
all operations are well-formed, their `sourceStart` fields follow the source
cursor `c` (which advances by `sourceCount`), and no `equal` operation
directly follows another `equal` operation (`prevEq` records whether the
previous operation was an `equal`). -/
def opsInv : Nat → Bool → List DiffOperation → Prop
  | _, _, [] => True
  | c, prevEq, op :: rest =>
    wfOp op ∧ op.sourceStart = c ∧ (prevEq = true → ¬op.type = "equal") ∧
      opsInv (c + op.sourceCount) (op.type == "equal") rest

/-- In a mismatch state the matcher offsets are not both zero. -/
lemma findNextMatchingLine_pos (s p : List String) (h : mismatchState s p) :
    0 < (findNextMatchingLine s p).1 + (findNextMatchingLine s p).2 := by
  have h1 := findNextMatchingLine_progress s p h
  have h2 := findNextMatchingLine_le s p
  omega

/-- After dropping the common prefix, non-empty remainders start with
different lines. -/
lemma commonPrefixLen_drop_head_ne :
    ∀ s p : List String, s.drop (commonPrefixLen s p) ≠ [] → p.drop (commonPrefixLen s p) ≠ [] →
      (s.drop (commonPrefixLen s p)).head? ≠ (p.drop (commonPrefixLen s p)).head? := by
  intro s
  induction s with
  | nil => intro p hs _; simp [commonPrefixLen] at hs
  | cons x xs ih =>
    intro p hs hp
    cases p with
    | nil => simp [commonPrefixLen] at hp
    | cons y ys =>
      by_cases hxy : x = y
      · have hstep : commonPrefixLen (x :: xs) (y :: ys) = commonPrefixLen xs ys + 1 := by
          simp [commonPrefixLen, hxy]
        rw [hstep] at hs hp ⊢
        simp only [List.drop_succ_cons] at hs hp ⊢
        exact ih ys hs hp
      · have hstep : commonPrefixLen (x :: xs) (y :: ys) = 0 := by
          simp [commonPrefixLen, hxy]
        rw [hstep]
        simpa using hxy

/-- The remainders after the equal-scan form a mismatch state whenever they
are not both empty. -/
lemma mismatchState_drop (s p : List String)
    (h : ¬(s.drop (commonPrefixLen s p) = [] ∧ p.drop (commonPrefixLen s p) = [])) :
    mismatchState (s.drop (commonPrefixLen s p)) (p.drop (commonPrefixLen s p)) :=
  ⟨h, commonPrefixLen_drop_head_ne s p⟩

lemma opsInv_nil (c : Nat) (b : Bool) : opsInv c b [] := trivial

lemma opsInv_cons (c : Nat) (b : Bool) (op : DiffOperation) (rest : List DiffOperation)
    (h1 : wfOp op) (h2 : op.sourceStart = c) (h3 : b = true → ¬op.type = "equal")
    (h4 : opsInv (c + op.sourceCount) (op.type == "equal") rest) : opsInv c b (op :: rest) :=
  ⟨h1, h2, h3, h4⟩

lemma computeLineDiffFuel_opsInv :
    ∀ fuel sourceIdx patchIdx s p, s.length + p.length ≤ fuel →
      opsInv sourceIdx false (computeLineDiffFuel fuel sourceIdx patchIdx s p) := by
  intro fuel
  induction fuel with
  | zero => intro si pi s p hlen; simp [computeLineDiffFuel, opsInv]
  | succ n ih =>
    intro si pi s p hlen
    simp only [computeLineDiffFuel]
    by_cases h1 : s = [] ∧ p = []
    · simp only [if_pos h1]; trivial
    · simp only [if_neg h1]
      set k := commonPrefixLen s p with hk
      have hkle : k ≤ s.length := by rw [hk]; exact commonPrefixLen_le_left s p
      have hlen1 : (s.take k).length = k := by
        rw [List.length_take]
        omega
      by_cases h2 : s.drop k = [] ∧ p.drop k = []
      · simp only [if_pos h2]
        clear_value k
        by_cases hk0 : 0 < k
        · simp only [if_pos hk0]
          exact opsInv_cons _ _ _ _
            (Or.inl ⟨rfl, rfl, rfl, by show 1 ≤ (s.take k).length; omega⟩) rfl
            (by intro h; exact absurd h (by decide)) (opsInv_nil _ _)
        · simp only [if_neg hk0]
          exact opsInv_nil _ _
      · simp only [if_neg h2]
        set m := findNextMatchingLine (s.drop k) (p.drop k) with hm
        have hpos : 0 < m.1 + m.2 := by
          rw [hm]; exact findNextMatchingLine_pos _ _ (mismatchState_drop s p h2)
        have hb := findNextMatchingLine_le (s.drop k) (p.drop k)
        rw [← hm] at hb
        have hb1 := hb.1
        have hb2 := hb.2
        rw [List.length_drop] at hb1 hb2
        have hlen2 : ((s.drop k).take m.1).length = m.1 := by
          rw [List.length_take, List.length_drop]
          omega
        have hlen3 : ((p.drop k).take m.2).length = m.2 := by
          rw [List.length_take, List.length_drop]
          omega
        have hlt := computeLineDiff_measure_lt s p h2
        rw [← hk, ← hm] at hlt
        have hrec := ih (si + k + m.1) (pi + k + m.2)
          ((s.drop k).drop m.1) ((p.drop k).drop m.2)
          (by simp only [List.length_drop]; omega)
        clear_value k m
        by_cases hk0 : 0 < k <;> by_cases hm1 : 0 < m.1 <;> by_cases hm2 : 0 < m.2
        all_goals simp only [hk0, hm1, hm2, if_true, if_false,
          List.nil_append, List.append_nil, List.cons_append, List.singleton_append]
        all_goals try omega
        · -- equal, delete, insert
          refine opsInv_cons _ _ _ _
            (Or.inl ⟨rfl, rfl, rfl, by show 1 ≤ (s.take k).length; omega⟩) rfl
            (by intro h; exact absurd h (by decide)) ?_
          refine opsInv_cons _ _ _ _
            (Or.inr (Or.inl ⟨rfl, rfl, rfl, by show 1 ≤ ((s.drop k).take m.1).length; omega⟩))
            (by show si + k = si + (s.take k).length; omega)
            (by intro h; show ¬("delete" : String) = "equal"; decide) ?_
          refine opsInv_cons _ _ _ _
            (Or.inr (Or.inr ⟨rfl, rfl, rfl, by show 1 ≤ ((p.drop k).take m.2).length; omega⟩))
            (by show si + k + m.1 = si + (s.take k).length + ((s.drop k).take m.1).length; omega)
            (by intro h; show ¬("insert" : String) = "equal"; decide) ?_
          show opsInv (si + (s.take k).length + ((s.drop k).take m.1).length + 0) false
            (computeLineDiffFuel n (si + k + m.1) (pi + k + m.2)
              ((s.drop k).drop m.1) ((p.drop k).drop m.2))
          rw [show si + (s.take k).length + ((s.drop k).take m.1).length + 0 = si + k + m.1
            from by omega]
          exact hrec
        · -- equal, delete
          refine opsInv_cons _ _ _ _
            (Or.inl ⟨rfl, rfl, rfl, by show 1 ≤ (s.take k).length; omega⟩) rfl
            (by intro h; exact absurd h (by decide)) ?_
          refine opsInv_cons _ _ _ _
            (Or.inr (Or.inl ⟨rfl, rfl, rfl, by show 1 ≤ ((s.drop k).take m.1).length; omega⟩))
            (by show si + k = si + (s.take k).length; omega)
            (by intro h; show ¬("delete" : String) = "equal"; decide) ?_
          show opsInv (si + (s.take k).length + ((s.drop k).take m.1).length) false
            (computeLineDiffFuel n (si + k + m.1) (pi + k + m.2)
              ((s.drop k).drop m.1) ((p.drop k).drop m.2))
          rw [show si + (s.take k).length + ((s.drop k).take m.1).length = si + k + m.1
            from by omega]
          exact hrec
        · -- equal, insert
          refine opsInv_cons _ _ _ _
            (Or.inl ⟨rfl, rfl, rfl, by show 1 ≤ (s.take k).length; omega⟩) rfl
            (by intro h; exact absurd h (by decide)) ?_
          refine opsInv_cons _ _ _ _
            (Or.inr (Or.inr ⟨rfl, rfl, rfl, by show 1 ≤ ((p.drop k).take m.2).length; omega⟩))
            (by show si + k + m.1 = si + (s.take k).length; omega)
            (by intro h; show ¬("insert" : String) = "equal"; decide) ?_
          show opsInv (si + (s.take k).length + 0) false
            (computeLineDiffFuel n (si + k + m.1) (pi + k + m.2)
              ((s.drop k).drop m.1) ((p.drop k).drop m.2))
          rw [show si + (s.take k).length + 0 = si + k + m.1 from by omega]
          exact hrec
        · -- delete, insert
          refine opsInv_cons _ _ _ _
            (Or.inr (Or.inl ⟨rfl, rfl, rfl, by show 1 ≤ ((s.drop k).take m.1).length; omega⟩))
            (by show si + k = si; omega)
            (by intro h; exact absurd h (by decide)) ?_
          refine opsInv_cons _ _ _ _
            (Or.inr (Or.inr ⟨rfl, rfl, rfl, by show 1 ≤ ((p.drop k).take m.2).length; omega⟩))
            (by show si + k + m.1 = si + ((s.drop k).take m.1).length; omega)
            (by intro h; show ¬("insert" : String) = "equal"; decide) ?_
          show opsInv (si + ((s.drop k).take m.1).length + 0) false
            (computeLineDiffFuel n (si + k + m.1) (pi + k + m.2)
              ((s.drop k).drop m.1) ((p.drop k).drop m.2))
          rw [show si + ((s.drop k).take m.1).length + 0 = si + k + m.1 from by omega]
          exact hrec
        · -- delete only
          refine opsInv_cons _ _ _ _
            (Or.inr (Or.inl ⟨rfl, rfl, rfl, by show 1 ≤ ((s.drop k).take m.1).length; omega⟩))
            (by show si + k = si; omega)
            (by intro h; exact absurd h (by decide)) ?_
          show opsInv (si + ((s.drop k).take m.1).length) false
            (computeLineDiffFuel n (si + k + m.1) (pi + k + m.2)
              ((s.drop k).drop m.1) ((p.drop k).drop m.2))
          rw [show si + ((s.drop k).take m.1).length = si + k + m.1 from by omega]
          exact hrec
        · -- insert only
          refine opsInv_cons _ _ _ _
            (Or.inr (Or.inr ⟨rfl, rfl, rfl, by show 1 ≤ ((p.drop k).take m.2).length; omega⟩))
            (by show si + k + m.1 = si; omega)
            (by intro h; exact absurd h (by decide)) ?_
          show opsInv (si + 0) false
            (computeLineDiffFuel n (si + k + m.1) (pi + k + m.2)
              ((s.drop k).drop m.1) ((p.drop k).drop m.2))
          rw [show si + 0 = si + k + m.1 from by omega]
          exact hrec

/-- The operation list of `computeLineDiff` satisfies the stream invariant
starting at cursor 0. -/
lemma computeLineDiff_opsInv (sourceLines patchedLines : List String) :
    opsInv 0 false (computeLineDiff sourceLines patchedLines) := by
  rw [computeLineDiff_eval]
  exact computeLineDiffFuel_opsInv _ 0 0 _ _ le_rfl

lemma opsInv_all_wf :
    ∀ (ops : List DiffOperation) (c : Nat) (b : Bool), opsInv c b ops →
      ∀ op ∈ ops, wfOp op := by
  intro ops
  induction ops with
  | nil => intro c b _ op hop; simp at hop
  | cons o rest ih =>
    intro c b h op hop
    simp only [opsInv] at h
    rcases List.mem_cons.mp hop with rfl | hmem
    · exact h.1
    · exact ih _ _ h.2.2.2 op hmem

/-- C9: `computeLineDiff` never emits a zero-length operation: every `equal`
operation has `sourceCount ≥ 1`, every `delete` operation has
`sourceCount ≥ 1` and every `insert` operation has `patchCount ≥ 1`. -/
theorem computeLineDiff_no_zero_length_ops (sourceLines patchedLines : List String) :
    ∀ op ∈ computeLineDiff sourceLines patchedLines,
      (op.type = "equal" → 1 ≤ op.sourceCount) ∧
      (op.type = "delete" → 1 ≤ op.sourceCount) ∧
      (op.type = "insert" → 1 ≤ op.patchCount) := by
  intro op hop
  have hwf := opsInv_all_wf _ _ _ (computeLineDiff_opsInv sourceLines patchedLines) op hop
  rcases hwf with ⟨ht, hsc, _, hl⟩ | ⟨ht, hsc, _, hl⟩ | ⟨ht, _, hpc, hl⟩
  · refine ⟨fun _ => by omega, fun hdel => ?_, fun hins => ?_⟩
    · rw [ht] at hdel; exact absurd hdel (by decide)
    · rw [ht] at hins; exact absurd hins (by decide)
  · refine ⟨fun heq => ?_, fun _ => by omega, fun hins => ?_⟩
    · rw [ht] at heq; exact absurd heq (by decide)
    · rw [ht] at hins; exact absurd hins (by decide)
  · refine ⟨fun heq => ?_, fun hdel => ?_, fun _ => by omega⟩
    · rw [ht] at heq; exact absurd heq (by decide)
    · rw [ht] at hdel; exact absurd hdel (by decide)

/-- Witness for C9 at a concrete input: the `delete` operation emitted for
source `["a"]` against patched `["b"]` covers one line. -/
theorem computeLineDiff_no_zero_length_ops_witness :
    1 ≤ ({ type := "delete", sourceStart := 0, sourceCount := 1, patchStart := 0,
           patchCount := 0, lines := ["a"] } : DiffOperation).sourceCount :=
  (computeLineDiff_no_zero_length_ops ["a"] ["b"] _
    (by rw [computeLineDiff_eval]; decide)).2.1 rfl

/-- C10: in the mismatch state of `computeLineDiff`'s main loop (reached
after the equal-scan, so the windows are not both empty and their first
lines differ when both are non-empty), `findNextMatchingLine` never returns
`(0, 0)`, and consuming its offsets strictly decreases the total number of
unconsumed lines, so `sourceIdx + patchIdx` strictly increases and the loop
terminates. -/
theorem computeLineDiff_loop_progress (s p : List String) (h : mismatchState s p) :
    ¬((findNextMatchingLine s p).1 = 0 ∧ (findNextMatchingLine s p).2 = 0) ∧
    (s.length - (findNextMatchingLine s p).1) + (p.length - (findNextMatchingLine s p).2)
      < s.length + p.length := by
  have h1 := findNextMatchingLine_progress s p h
  have h2 := findNextMatchingLine_le s p
  exact ⟨by omega, h1⟩

/-- Witness for C10 at a concrete mismatch state. -/
theorem computeLineDiff_loop_progress_witness :
    ¬((findNextMatchingLine ["a"] ["b"]).1 = 0 ∧ (findNextMatchingLine ["a"] ["b"]).2 = 0) ∧
    ((["a"] : List String).length - (findNextMatchingLine ["a"] ["b"]).1) +
      ((["b"] : List String).length - (findNextMatchingLine ["a"] ["b"]).2) <
      (["a"] : List String).length + (["b"] : List String).length :=
  computeLineDiff_loop_progress ["a"] ["b"] (by decide)

/-- A unified-diff hunk as assembled by `generateHunks` of
`cmd/patchvendor.go`, kept in structured form before rendering:
`srcStart`/`patStart` are the recorded 0-based hunk start positions
(`hunkSourceStart`/`hunkPatchStart`), `srcCnt`/`patCnt` the accumulated
line counts, and `body` the prefixed body lines in order (each rendered
with a trailing newline). -/
structure Hunk where
  srcStart : Nat
  patStart : Nat
  srcCnt : Nat
  patCnt : Nat
  body : List String
deriving DecidableEq, Repr

/-- The fixed context width of `generateHunks`. -/
def contextLines : Nat := 3

/-- Embeds the loop of `generateHunks` of `cmd/patchvendor.go`.  The Go
code tracks an open hunk with the flag `inHunk` plus mutable fields and
appends a finished hunk to the result slice; here the open hunk is an
`Option Hunk` and the function returns the hunks emitted from the current
point on, in order.  Go's `max(0, x-3)` on non-negative ints is `Nat`
truncated subtraction, and the bounded context-copy loop
`for j := contextStart; j < contextEnd && j < len(sourceLines); j++`
is the corresponding `drop`/`take` slice. -/
def genHunksAux (sourceLines : List String) : List DiffOperation → Option Hunk → List Hunk
  | [], none => []
  | [], some h => [h]
  | op :: rest, cur =>
    if op.type = "equal" then
      match cur with
      | none => genHunksAux sourceLines rest none
      | some h =>
        let contextToAdd := min contextLines op.lines.length
        let h' : Hunk := { h with
          body := h.body ++ (op.lines.take contextToAdd).map (fun l => " " ++ l),
          srcCnt := h.srcCnt + contextToAdd,
          patCnt := h.patCnt + contextToAdd }
        if contextLines < op.lines.length ∨ rest = [] then
          h' :: genHunksAux sourceLines rest none
        else
          genHunksAux sourceLines rest (some h')
    else if op.type = "delete" ∨ op.type = "insert" then
      let h0 : Hunk :=
        match cur with
        | some h => h
        | none =>
          let contextStart := op.sourceStart - contextLines
          let ctx := (sourceLines.drop contextStart).take (op.sourceStart - contextStart)
          { srcStart := contextStart, patStart := op.patchStart - contextLines,
            srcCnt := ctx.length, patCnt := ctx.length,
            body := ctx.map (fun l => " " ++ l) }
      let h1 : Hunk :=
        if op.type = "delete" then
          { h0 with
            body := h0.body ++ op.lines.map (fun l => "-" ++ l),
            srcCnt := h0.srcCnt + op.lines.length }
        else
          { h0 with
            body := h0.body ++ op.lines.map (fun l => "+" ++ l),
            patCnt := h0.patCnt + op.lines.length }
      genHunksAux sourceLines rest (some h1)
    else
      genHunksAux sourceLines rest cur

/-- Renders the body lines of a hunk, one per line. -/
def renderBody : List String → String
  | [] => ""
  | l :: ls => l ++ "\n" ++ renderBody ls

/-- Renders a hunk: the `@@ -A,B +C,D @@` header (1-based start lines)
followed by the prefixed body lines, as written by `generateHunks`. -/
def renderHunk (h : Hunk) : String :=
  "@@ -" ++ toString (h.srcStart + 1) ++ "," ++ toString h.srcCnt ++
    " +" ++ toString (h.patStart + 1) ++ "," ++ toString h.patCnt ++ " @@\n" ++
    renderBody h.body

/-- Embeds `generateHunks` of `cmd/patchvendor.go` (the `patchedLines`
parameter is accepted and unused, exactly as in the Go code). -/
def generateHunks (operations : List DiffOperation)
    (sourceLines patchedLines : List String) : List String :=
  (genHunksAux sourceLines operations none).map renderHunk


lemma contextLines_eq : contextLines = 3 := rfl

/-- Projection of `genHunksAux` onto the recorded hunk start positions: the
emitted hunks' `srcStart` fields depend on the open-hunk state only through
its own `srcStart`, so the start positions can be computed side by side
(`genHunksAux_starts_eq` proves the agreement). -/
def genHunkStarts : List DiffOperation → Option Nat → List Nat
  | [], none => []
  | [], some s0 => [s0]
  | op :: rest, cur =>
    if op.type = "equal" then
      match cur with
      | none => genHunkStarts rest none
      | some s0 =>
        if contextLines < op.lines.length ∨ rest = [] then
          s0 :: genHunkStarts rest none
        else
          genHunkStarts rest (some s0)
    else if op.type = "delete" ∨ op.type = "insert" then
      match cur with
      | some s0 => genHunkStarts rest (some s0)
      | none => genHunkStarts rest (some (op.sourceStart - contextLines))
    else
      genHunkStarts rest cur

lemma genHunksAux_starts_eq (src : List String) :
    ∀ (ops : List DiffOperation) (cur : Option Hunk),
      (genHunksAux src ops cur).map Hunk.srcStart = genHunkStarts ops (cur.map Hunk.srcStart) := by
  intro ops
  induction ops with
  | nil =>
    intro cur
    cases cur with
    | none => simp [genHunksAux, genHunkStarts]
    | some h => simp [genHunksAux, genHunkStarts]
  | cons op rest ih =>
    intro cur
    by_cases heq : op.type = "equal"
    · cases cur with
      | none => simp [genHunksAux, genHunkStarts, heq, ih]
      | some h =>
        by_cases hclose : contextLines < op.lines.length ∨ rest = []
        · simp [genHunksAux, genHunkStarts, heq, hclose, ih]
        · simp [genHunksAux, genHunkStarts, heq, hclose, ih]
    · by_cases hchg : op.type = "delete" ∨ op.type = "insert"
      · by_cases hdel : op.type = "delete"
        · cases cur with
          | none => simp [genHunksAux, genHunkStarts, heq, hchg, hdel, ih]
          | some h => simp [genHunksAux, genHunkStarts, heq, hchg, hdel, ih]
        · have hins : op.type = "insert" := hchg.resolve_left hdel
          cases cur with
          | none => simp [genHunksAux, genHunkStarts, heq, hchg, hdel, hins, ih]
          | some h => simp [genHunksAux, genHunkStarts, heq, hchg, hdel, hins, ih]
      · cases cur with
        | none => simp [genHunksAux, genHunkStarts, heq, hchg, ih]
        | some h => simp [genHunksAux, genHunkStarts, heq, hchg, ih]

/-- Core induction for hunk start positions: under the stream invariant at
source cursor `c`, starts emitted from a closed state are strictly
increasing and all within `contextLines` below the cursor; from an open
state the recorded start is emitted first, all later starts lie strictly
above the cursor minus the context width. -/
lemma genHunkStarts_chain :
    ∀ (ops : List DiffOperation) (c : Nat) (b : Bool), opsInv c b ops →
      (List.Chain' (· < ·) (genHunkStarts ops none) ∧
        ∀ x ∈ genHunkStarts ops none, c ≤ x + 3) ∧
      (∀ s0, s0 ≤ c →
        ∃ tl, genHunkStarts ops (some s0) = s0 :: tl ∧
          List.Chain' (· < ·) (s0 :: tl) ∧
          ∀ y ∈ tl, c + 1 ≤ y + 3) := by
  intro ops
  induction ops with
  | nil =>
    intro c b _
    refine ⟨⟨by simp [genHunkStarts], by simp [genHunkStarts]⟩, ?_⟩
    intro s0 _
    exact ⟨[], by simp [genHunkStarts], by simp, by simp⟩
  | cons op rest ih =>
    intro c b hinv
    obtain ⟨hwf, hstart, _, hrest⟩ := hinv
    rcases hwf with ⟨ht, hsc, hpc, hl⟩ | ⟨ht, hsc, hpc, hl⟩ | ⟨ht, hsc, hpc, hl⟩
    · -- equal operation
      have hbeq : (op.type == "equal") = true := by rw [ht]; rfl
      rw [hbeq] at hrest
      have ihA := (ih _ _ hrest).1
      constructor
      · constructor
        · simpa [genHunkStarts, ht] using ihA.1
        · intro x hx
          simp only [genHunkStarts, ht, if_pos rfl] at hx
          have := ihA.2 x hx
          omega
      · intro s0 hs0
        by_cases hclose : contextLines < op.lines.length ∨ rest = []
        · refine ⟨genHunkStarts rest none, by simp [genHunkStarts, ht, hclose], ?_, ?_⟩
          · rw [List.chain'_cons']
            refine ⟨?_, ihA.1⟩
            intro y hy
            have hymem : y ∈ genHunkStarts rest none := List.mem_of_mem_head? hy
            have hyb := ihA.2 y hymem
            rcases hclose with hlong | hnil
            · rw [contextLines_eq] at hlong
              omega
            · subst hnil
              simp [genHunkStarts] at hymem
          · intro y hy
            have := ihA.2 y hy
            omega
        · obtain ⟨tl, htl, hchain, hbound⟩ := (ih _ _ hrest).2 s0 (by omega)
          refine ⟨tl, by simp [genHunkStarts, ht, hclose, htl], hchain, ?_⟩
          intro y hy
          have := hbound y hy
          omega
    · -- delete operation
      have hbeq : (op.type == "equal") = false := by rw [ht]; rfl
      rw [hbeq] at hrest
      have hne1 : ¬op.type = "equal" := by rw [ht]; decide
      have hor : op.type = "delete" ∨ op.type = "insert" := Or.inl ht
      constructor
      · obtain ⟨tl, htl, hchain, hbound⟩ := (ih _ _ hrest).2 (op.sourceStart - contextLines)
          (by rw [contextLines_eq]; omega)
        have hgoal : genHunkStarts (op :: rest) none = (op.sourceStart - contextLines) :: tl := by
          simp [genHunkStarts, hne1, hor, htl]
        constructor
        · rw [hgoal]; exact hchain
        · intro x hx
          rw [hgoal] at hx
          rcases List.mem_cons.mp hx with rfl | hxtl
          · rw [contextLines_eq]; omega
          · have := hbound x hxtl
            omega
      · intro s0 hs0
        obtain ⟨tl, htl, hchain, hbound⟩ := (ih _ _ hrest).2 s0 (by omega)
        refine ⟨tl, by simp [genHunkStarts, hne1, hor, htl], hchain, ?_⟩
        intro y hy
        have := hbound y hy
        omega
    · -- insert operation
      have hbeq : (op.type == "equal") = false := by rw [ht]; rfl
      rw [hbeq] at hrest
      have hne1 : ¬op.type = "equal" := by rw [ht]; decide
      have hor : op.type = "delete" ∨ op.type = "insert" := Or.inr ht
      constructor
      · obtain ⟨tl, htl, hchain, hbound⟩ := (ih _ _ hrest).2 (op.sourceStart - contextLines)
          (by rw [contextLines_eq]; omega)
        have hgoal : genHunkStarts (op :: rest) none = (op.sourceStart - contextLines) :: tl := by
          simp [genHunkStarts, hne1, hor, htl]
        constructor
        · rw [hgoal]; exact hchain
        · intro x hx
          rw [hgoal] at hx
          rcases List.mem_cons.mp hx with rfl | hxtl
          · rw [contextLines_eq]; omega
          · have := hbound x hxtl
            omega
      · intro s0 hs0
        obtain ⟨tl, htl, hchain, hbound⟩ := (ih _ _ hrest).2 s0 (by omega)
        refine ⟨tl, by simp [genHunkStarts, hne1, hor, htl], hchain, ?_⟩
        intro y hy
        have := hbound y hy
        omega

/-- Two source line ranges given as 1-based (start, length) pairs (the `-A,B`
data of a hunk header) are disjoint. -/
def rangesDisjoint (r1 r2 : Nat × Nat) : Prop :=
  r1.1 + r1.2 ≤ r2.1 ∨ r2.1 + r2.2 ≤ r1.1

instance (r1 r2 : Nat × Nat) : Decidable (rangesDisjoint r1 r2) := by
  unfold rangesDisjoint; infer_instance

/-- C5 counterexample: for source `["0","1","2","3","4","5"]` against
patched `["X","1","2","3","4","Y"]` (two single-line changes separated by a
4-line equal run) the assembler emits two hunks with headers `@@ -1,4 ...`
and `@@ -3,4 ...`: their 1-based source ranges 1..4 and 3..6 overlap on
lines 3 and 4, refuting pairwise non-overlap (the starts 1 < 3 do increase
strictly). -/
theorem generateHunks_overlap_counterexample :
    ((genHunksAux ["0", "1", "2", "3", "4", "5"]
        (computeLineDiff ["0", "1", "2", "3", "4", "5"] ["X", "1", "2", "3", "4", "Y"]) none).map
      (fun h => (h.srcStart + 1, h.srcCnt)) = [(1, 4), (3, 4)]) ∧
    ¬rangesDisjoint (1, 4) (3, 4) := by
  constructor
  · rw [computeLineDiff_eval]
    decide
  · decide

/-- C5 amended: for every input pair, the starting source line numbers
`A = srcStart + 1` of the hunk headers emitted by `generateHunks` on the
operation list of `computeLineDiff` are strictly increasing (pairwise
non-overlap of the described ranges, however, can fail: see the
counterexample, where consecutive hunks share source lines). -/
theorem generateHunks_starts_strictly_increasing (sourceLines patchedLines : List String) :
    List.Chain' (· < ·)
      ((genHunksAux sourceLines (computeLineDiff sourceLines patchedLines) none).map
        (fun h => h.srcStart + 1)) := by
  have heq := genHunksAux_starts_eq sourceLines (computeLineDiff sourceLines patchedLines) none
  simp only [Option.map_none'] at heq
  have h1 := (genHunkStarts_chain (computeLineDiff sourceLines patchedLines) 0 false
    (computeLineDiff_opsInv sourceLines patchedLines)).1.1
  rw [← heq] at h1
  have hmap : (genHunksAux sourceLines (computeLineDiff sourceLines patchedLines) none).map
      (fun h => h.srcStart + 1) =
      ((genHunksAux sourceLines (computeLineDiff sourceLines patchedLines) none).map
        Hunk.srcStart).map (fun x => x + 1) := by
    rw [List.map_map]
    rfl
  rw [hmap, List.chain'_map]
  exact h1.imp (fun a b hab => by omega)

/-- C8: for source `["a","b","c"]` and patched `["a","x","c"]` the engine
produces exactly one hunk, with header `@@ -1,3 +1,3 @@` and body
` a`, `-b`, `+x`, ` c`. -/
theorem generateHunks_single_change_concrete :
    generateHunks (computeLineDiff ["a", "b", "c"] ["a", "x", "c"])
      ["a", "b", "c"] ["a", "x", "c"] = ["@@ -1,3 +1,3 @@\n a\n-b\n+x\n c\n"] := by
  rw [computeLineDiff_eval]
  decide

/-- A body line is a context line when it starts with a space (the prefix
written by `generateHunks` for context; change lines start with `-` or
`+`). -/
def isCtxLine (x : String) : Bool :=
  match x.data with
  | c :: _ => c == ' '
  | [] => false

/-- Number of leading context lines of a hunk body: space-prefixed lines
before the first `-` or `+` line. -/
def leadingCtx (body : List String) : Nat := (body.takeWhile isCtxLine).length

/-- Number of trailing context lines of a hunk body: space-prefixed lines
after the last `-` or `+` line. -/
def trailingCtx (body : List String) : Nat := (body.reverse.takeWhile isCtxLine).length

/-- The body contains at least one change (`-` or `+`) line. -/
def hasChange (body : List String) : Prop := ∃ x ∈ body, isCtxLine x = false

lemma isCtxLine_space (l : String) : isCtxLine (" " ++ l) = true := by
  cases l with
  | mk data => rfl

lemma isCtxLine_minus (l : String) : isCtxLine ("-" ++ l) = false := by
  cases l with
  | mk data => rfl

lemma isCtxLine_plus (l : String) : isCtxLine ("+" ++ l) = false := by
  cases l with
  | mk data => rfl

lemma takeWhile_append_of_all {q : String → Bool} :
    ∀ (l1 l2 : List String), (∀ x ∈ l1, q x = true) →
      (l1 ++ l2).takeWhile q = l1 ++ l2.takeWhile q := by
  intro l1
  induction l1 with
  | nil => intro l2 _; simp
  | cons a l1' ih =>
    intro l2 h
    have ha : q a = true := h a (by simp)
    simp only [List.cons_append, List.takeWhile_cons, ha]
    rw [ih l2 (fun x hx => h x (by simp [hx]))]
    simp

lemma takeWhile_append_of_exists_false {q : String → Bool} :
    ∀ (l1 l2 : List String), (∃ x ∈ l1, q x = false) →
      (l1 ++ l2).takeWhile q = l1.takeWhile q := by
  intro l1
  induction l1 with
  | nil => intro l2 h; simp at h
  | cons a l1' ih =>
    intro l2 h
    by_cases ha : q a = true
    · simp only [List.cons_append, List.takeWhile_cons, ha]
      obtain ⟨x, hx, hqx⟩ := h
      rcases List.mem_cons.mp hx with rfl | hx'
      · rw [ha] at hqx; cases hqx
      · rw [ih l2 ⟨x, hx', hqx⟩]
    · have ha' : q a = false := by
        cases hqa : q a
        · rfl
        · exact absurd hqa ha
      simp only [List.cons_append, List.takeWhile_cons, ha']
      simp

lemma takeWhile_all_false {q : String → Bool} :
    ∀ l : List String, (∀ x ∈ l, q x = false) → l.takeWhile q = [] := by
  intro l h
  cases l with
  | nil => rfl
  | cons a l' =>
    have := h a (by simp)
    simp [List.takeWhile_cons, this]

lemma leadingCtx_append_change (l1 l2 : List String) (h : hasChange l1) :
    leadingCtx (l1 ++ l2) = leadingCtx l1 := by
  unfold leadingCtx
  rw [takeWhile_append_of_exists_false l1 l2 h]

lemma leadingCtx_ctx_append (l1 l2 : List String) (h : ∀ x ∈ l1, isCtxLine x = true) :
    leadingCtx (l1 ++ l2) = l1.length + leadingCtx l2 := by
  unfold leadingCtx
  rw [takeWhile_append_of_all l1 l2 h]
  simp

lemma trailingCtx_append_ctx (l1 l2 : List String) (h : ∀ x ∈ l2, isCtxLine x = true) :
    trailingCtx (l1 ++ l2) = l2.length + trailingCtx l1 := by
  unfold trailingCtx
  rw [List.reverse_append]
  rw [takeWhile_append_of_all l2.reverse l1.reverse (fun x hx => h x (List.mem_reverse.mp hx))]
  simp

lemma trailingCtx_append_change (l1 l2 : List String) (h : hasChange l2) :
    trailingCtx (l1 ++ l2) = trailingCtx l2 := by
  unfold trailingCtx
  rw [List.reverse_append]
  obtain ⟨x, hx, hqx⟩ := h
  rw [takeWhile_append_of_exists_false l2.reverse l1.reverse ⟨x, List.mem_reverse.mpr hx, hqx⟩]

lemma trailingCtx_all_false (l : List String) (h : ∀ x ∈ l, isCtxLine x = false) :
    trailingCtx l = 0 := by
  unfold trailingCtx
  rw [takeWhile_all_false l.reverse (fun x hx => h x (List.mem_reverse.mp hx))]
  rfl

lemma leadingCtx_all_false (l : List String) (h : ∀ x ∈ l, isCtxLine x = false) :
    leadingCtx l = 0 := by
  unfold leadingCtx
  rw [takeWhile_all_false l h]
  rfl

/-- Projection of `genHunksAux` onto the hunk bodies: the emitted bodies
depend on the open-hunk state only through its own body
(`genHunksAux_bodies_eq` proves the agreement). -/
def genHunkBodies (src : List String) : List DiffOperation → Option (List String) → List (List String)
  | [], none => []
  | [], some b0 => [b0]
  | op :: rest, cur =>
    if op.type = "equal" then
      match cur with
      | none => genHunkBodies src rest none
      | some b0 =>
        let b' := b0 ++ (op.lines.take (min contextLines op.lines.length)).map (fun l => " " ++ l)
        if contextLines < op.lines.length ∨ rest = [] then
          b' :: genHunkBodies src rest none
        else
          genHunkBodies src rest (some b')
    else if op.type = "delete" ∨ op.type = "insert" then
      let b0 :=
        match cur with
        | some b0 => b0
        | none => ((src.drop (op.sourceStart - contextLines)).take
            (op.sourceStart - (op.sourceStart - contextLines))).map (fun l => " " ++ l)
      let b1 :=
        if op.type = "delete" then b0 ++ op.lines.map (fun l => "-" ++ l)
        else b0 ++ op.lines.map (fun l => "+" ++ l)
      genHunkBodies src rest (some b1)
    else
      genHunkBodies src rest cur

lemma genHunksAux_bodies_eq (src : List String) :
    ∀ (ops : List DiffOperation) (cur : Option Hunk),
      (genHunksAux src ops cur).map Hunk.body = genHunkBodies src ops (cur.map Hunk.body) := by
  intro ops
  induction ops with
  | nil =>
    intro cur
    cases cur with
    | none => simp [genHunksAux, genHunkBodies]
    | some h => simp [genHunksAux, genHunkBodies]
  | cons op rest ih =>
    intro cur
    by_cases heq : op.type = "equal"
    · cases cur with
      | none => simp [genHunksAux, genHunkBodies, heq, ih]
      | some h =>
        by_cases hclose : contextLines < op.lines.length ∨ rest = []
        · simp [genHunksAux, genHunkBodies, heq, hclose, ih]
        · simp [genHunksAux, genHunkBodies, heq, hclose, ih]
    · by_cases hchg : op.type = "delete" ∨ op.type = "insert"
      · by_cases hdel : op.type = "delete"
        · cases cur with
          | none => simp [genHunksAux, genHunkBodies, heq, hchg, hdel, ih]
          | some h => simp [genHunksAux, genHunkBodies, heq, hchg, hdel, ih]
        · have hins : op.type = "insert" := hchg.resolve_left hdel
          cases cur with
          | none => simp [genHunksAux, genHunkBodies, heq, hchg, hdel, hins, ih]
          | some h => simp [genHunksAux, genHunkBodies, heq, hchg, hdel, hins, ih]
      · cases cur with
        | none => simp [genHunksAux, genHunkBodies, heq, hchg, ih]
        | some h => simp [genHunksAux, genHunkBodies, heq, hchg, ih]

/-- Core induction for the context bound: under the stream invariant every
emitted body has at most `contextLines` leading and trailing context lines.
From an open state whose body already holds a change line, at most 3
leading context lines and trailing context only when the previous operation
was an `equal` (recorded in the invariant's `prevEq` flag), the same holds. -/
lemma genHunkBodies_ctx :
    ∀ (ops : List DiffOperation) (c : Nat) (b : Bool), opsInv c b ops →
      ∀ src : List String,
      (∀ bd ∈ genHunkBodies src ops none, leadingCtx bd ≤ 3 ∧ trailingCtx bd ≤ 3) ∧
      (∀ b0, leadingCtx b0 ≤ 3 → hasChange b0 → trailingCtx b0 ≤ 3 →
        (b = false → trailingCtx b0 = 0) →
        ∀ bd ∈ genHunkBodies src ops (some b0), leadingCtx bd ≤ 3 ∧ trailingCtx bd ≤ 3) := by
  intro ops
  induction ops with
  | nil =>
    intro c b _ src
    constructor
    · intro bd hbd; simp [genHunkBodies] at hbd
    · intro b0 hlead _ htrail _ bd hbd
      simp [genHunkBodies] at hbd
      subst hbd
      exact ⟨hlead, htrail⟩
  | cons op rest ih =>
    intro c b hinv src
    obtain ⟨hwf, hstart, hprev, hrest⟩ := hinv
    rcases hwf with ⟨ht, hsc, hpc, hl⟩ | ⟨ht, hsc, hpc, hl⟩ | ⟨ht, hsc, hpc, hl⟩
    · -- equal operation
      have hbeq : (op.type == "equal") = true := by rw [ht]; rfl
      rw [hbeq] at hrest
      have hbf : b = false := by
        cases hb : b
        · rfl
        · exact absurd ht (hprev hb)
      subst hbf
      constructor
      · intro bd hbd
        simp only [genHunkBodies, ht, if_pos rfl] at hbd
        exact (ih _ _ hrest src).1 bd hbd
      · intro b0 hlead hch htrail hzero bd hbd
        have htz : trailingCtx b0 = 0 := hzero rfl
        have hctxall : ∀ x ∈ (op.lines.take (min contextLines op.lines.length)).map
            (fun l => " " ++ l), isCtxLine x = true := by
          intro x hx
          obtain ⟨l, _, rfl⟩ := List.mem_map.mp hx
          exact isCtxLine_space l
        have hctxlen : ((op.lines.take (min contextLines op.lines.length)).map
            (fun l => " " ++ l)).length ≤ 3 := by
          rw [List.length_map, List.length_take, contextLines_eq]
          omega
        have hlead' : leadingCtx (b0 ++ (op.lines.take (min contextLines op.lines.length)).map
            (fun l => " " ++ l)) ≤ 3 := by
          rw [leadingCtx_append_change _ _ hch]
          exact hlead
        have htrail' : trailingCtx (b0 ++ (op.lines.take (min contextLines op.lines.length)).map
            (fun l => " " ++ l)) ≤ 3 := by
          rw [trailingCtx_append_ctx _ _ hctxall, htz]
          omega
        simp only [genHunkBodies, ht, if_pos rfl] at hbd
        by_cases hclose : contextLines < op.lines.length ∨ rest = []
        · rw [if_pos hclose] at hbd
          rcases List.mem_cons.mp hbd with rfl | hbd'
          · exact ⟨hlead', htrail'⟩
          · exact (ih _ _ hrest src).1 bd hbd'
        · rw [if_neg hclose] at hbd
          refine (ih _ _ hrest src).2 _ hlead' ?_ htrail' (by intro hc; cases hc) bd hbd
          obtain ⟨x, hx, hqx⟩ := hch
          exact ⟨x, by simp [hx], hqx⟩
    · -- delete operation
      have hbeq : (op.type == "equal") = false := by rw [ht]; rfl
      rw [hbeq] at hrest
      have hne1 : ¬op.type = "equal" := by rw [ht]; decide
      have hor : op.type = "delete" ∨ op.type = "insert" := Or.inl ht
      have hchgall : ∀ x ∈ op.lines.map (fun l => "-" ++ l), isCtxLine x = false := by
        intro x hx
        obtain ⟨l, _, rfl⟩ := List.mem_map.mp hx
        exact isCtxLine_minus l
      have hchgne : op.lines.map (fun l => "-" ++ l) ≠ [] := by
        simp only [ne_eq, List.map_eq_nil_iff]
        intro hl0
        rw [hl0] at hl
        simp at hl
      have hchgch : hasChange (op.lines.map (fun l => "-" ++ l)) := by
        cases hmap : op.lines.map (fun l => "-" ++ l) with
        | nil => exact absurd hmap hchgne
        | cons y ys =>
          exact ⟨y, by simp [hmap], hchgall y (by simp [hmap])⟩
      constructor
      · intro bd hbd
        simp only [genHunkBodies, if_neg hne1, if_pos hor, if_pos ht] at hbd
        set ctx := ((src.drop (op.sourceStart - contextLines)).take
          (op.sourceStart - (op.sourceStart - contextLines))).map (fun l => " " ++ l) with hctx
        have hctxall : ∀ x ∈ ctx, isCtxLine x = true := by
          intro x hx
          rw [hctx] at hx
          obtain ⟨l, _, rfl⟩ := List.mem_map.mp hx
          exact isCtxLine_space l
        have hctxlen : ctx.length ≤ 3 := by
          rw [hctx, List.length_map, List.length_take, contextLines_eq]
          omega
        refine (ih _ _ hrest src).2 _ ?_ ?_ ?_ ?_ bd hbd
        · rw [leadingCtx_ctx_append _ _ hctxall,
            leadingCtx_all_false _ hchgall]
          omega
        · obtain ⟨x, hx, hqx⟩ := hchgch
          exact ⟨x, by simp [hx], hqx⟩
        · rw [trailingCtx_append_change _ _ hchgch, trailingCtx_all_false _ hchgall]
          omega
        · intro _
          rw [trailingCtx_append_change _ _ hchgch]
          exact trailingCtx_all_false _ hchgall
      · intro b0 hlead hch htrail _ bd hbd
        simp only [genHunkBodies, if_neg hne1, if_pos hor, if_pos ht] at hbd
        refine (ih _ _ hrest src).2 _ ?_ ?_ ?_ ?_ bd hbd
        · rw [leadingCtx_append_change _ _ hch]
          exact hlead
        · obtain ⟨x, hx, hqx⟩ := hch
          exact ⟨x, by simp [hx], hqx⟩
        · rw [trailingCtx_append_change _ _ hchgch, trailingCtx_all_false _ hchgall]
          omega
        · intro _
          rw [trailingCtx_append_change _ _ hchgch]
          exact trailingCtx_all_false _ hchgall
    · -- insert operation
      have hbeq : (op.type == "equal") = false := by rw [ht]; rfl
      rw [hbeq] at hrest
      have hne1 : ¬op.type = "equal" := by rw [ht]; decide
      have hne2 : ¬op.type = "delete" := by rw [ht]; decide
      have hor : op.type = "delete" ∨ op.type = "insert" := Or.inr ht
      have hchgall : ∀ x ∈ op.lines.map (fun l => "+" ++ l), isCtxLine x = false := by
        intro x hx
        obtain ⟨l, _, rfl⟩ := List.mem_map.mp hx
        exact isCtxLine_plus l
      have hchgne : op.lines.map (fun l => "+" ++ l) ≠ [] := by
        simp only [ne_eq, List.map_eq_nil_iff]
        intro hl0
        rw [hl0] at hl
        simp at hl
      have hchgch : hasChange (op.lines.map (fun l => "+" ++ l)) := by
        cases hmap : op.lines.map (fun l => "+" ++ l) with
        | nil => exact absurd hmap hchgne
        | cons y ys =>
          exact ⟨y, by simp [hmap], hchgall y (by simp [hmap])⟩
      constructor
      · intro bd hbd
        simp only [genHunkBodies, if_neg hne1, if_pos hor, if_neg hne2] at hbd
        set ctx := ((src.drop (op.sourceStart - contextLines)).take
          (op.sourceStart - (op.sourceStart - contextLines))).map (fun l => " " ++ l) with hctx
        have hctxall : ∀ x ∈ ctx, isCtxLine x = true := by
          intro x hx
          rw [hctx] at hx
          obtain ⟨l, _, rfl⟩ := List.mem_map.mp hx
          exact isCtxLine_space l
        have hctxlen : ctx.length ≤ 3 := by
          rw [hctx, List.length_map, List.length_take, contextLines_eq]
          omega
        refine (ih _ _ hrest src).2 _ ?_ ?_ ?_ ?_ bd hbd
        · rw [leadingCtx_ctx_append _ _ hctxall,
            leadingCtx_all_false _ hchgall]
          omega
        · obtain ⟨x, hx, hqx⟩ := hchgch
          exact ⟨x, by simp [hx], hqx⟩
        · rw [trailingCtx_append_change _ _ hchgch, trailingCtx_all_false _ hchgall]
          omega
        · intro _
          rw [trailingCtx_append_change _ _ hchgch]
          exact trailingCtx_all_false _ hchgall
      · intro b0 hlead hch htrail _ bd hbd
        simp only [genHunkBodies, if_neg hne1, if_pos hor, if_neg hne2] at hbd
        refine (ih _ _ hrest src).2 _ ?_ ?_ ?_ ?_ bd hbd
        · rw [leadingCtx_append_change _ _ hch]
          exact hlead
        · obtain ⟨x, hx, hqx⟩ := hch
          exact ⟨x, by simp [hx], hqx⟩
        · rw [trailingCtx_append_change _ _ hchgch, trailingCtx_all_false _ hchgall]
          omega
        · intro _
          rw [trailingCtx_append_change _ _ hchgch]
          exact trailingCtx_all_false _ hchgall

/-- C7 counterexample: over arbitrary operation lists the 3-line context
bound fails.  For the list `delete ["d"]`, `equal ["e1","e2","e3"]`,
`equal ["f1","f2","f3"]` — two adjacent 3-line equal operations, a shape
`computeLineDiff` never produces — the assembler keeps the hunk open
through the first equal run and closes it after the second, emitting a
single hunk whose body ends in 6 trailing context lines. -/
theorem generateHunks_context_bound_counterexample :
    (genHunksAux ["a"]
        [{ type := "delete", sourceStart := 0, sourceCount := 1, patchStart := 0,
           patchCount := 0, lines := ["d"] },
         { type := "equal", sourceStart := 1, sourceCount := 3, patchStart := 0,
           patchCount := 3, lines := ["e1", "e2", "e3"] },
         { type := "equal", sourceStart := 4, sourceCount := 3, patchStart := 3,
           patchCount := 3, lines := ["f1", "f2", "f3"] }] none).map Hunk.body =
      [["-d", " e1", " e2", " e3", " f1", " f2", " f3"]] ∧
    trailingCtx ["-d", " e1", " e2", " e3", " f1", " f2", " f3"] = 6 ∧
    ¬(6 ≤ 3) := by
  refine ⟨by decide, by decide, by decide⟩

/-- C7 amended: no hunk emitted by `generateHunks` for an operation list
produced by `computeLineDiff` contains more than 3 leading or 3 trailing
context lines (space-prefixed body lines before the first, resp. after the
last, `-`/`+` line). -/
theorem generateHunks_context_bound (sourceLines patchedLines : List String) :
    ∀ h ∈ genHunksAux sourceLines (computeLineDiff sourceLines patchedLines) none,
      leadingCtx h.body ≤ 3 ∧ trailingCtx h.body ≤ 3 := by
  intro h hmem
  have heq := genHunksAux_bodies_eq sourceLines (computeLineDiff sourceLines patchedLines) none
  simp only [Option.map_none'] at heq
  have hbody : h.body ∈ genHunkBodies sourceLines (computeLineDiff sourceLines patchedLines) none := by
    rw [← heq]
    exact List.mem_map_of_mem Hunk.body hmem
  exact (genHunkBodies_ctx (computeLineDiff sourceLines patchedLines) 0 false
    (computeLineDiff_opsInv sourceLines patchedLines) sourceLines).1 h.body hbody

/-- Witness for C7 at a concrete input: the single hunk produced for
`["a","b","c"]` vs `["a","x","c"]` has one leading and one trailing context
line. -/
theorem generateHunks_context_bound_witness :
    leadingCtx [" a", "-b", "+x", " c"] ≤ 3 ∧ trailingCtx [" a", "-b", "+x", " c"] ≤ 3 :=
  generateHunks_context_bound ["a", "b", "c"] ["a", "x", "c"]
    { srcStart := 0, patStart := 0, srcCnt := 3, patCnt := 3, body := [" a", "-b", "+x", " c"] }
    (by rw [computeLineDiff_eval]; decide)

/-- Splits a character list at every occurrence of the separator, keeping
empty segments — the semantics of Go's `strings.Split` for a one-character
separator (`n` separators produce `n+1` segments; the empty input produces
one empty segment). -/
def splitOnSep (sep : Char) : List Char → List (List Char)
  | [] => [[]]
  | c :: cs =>
    match splitOnSep sep cs with
    | [] => [[c]]
    | r :: rs => if c = sep then [] :: r :: rs else (c :: r) :: rs

/-- Embeds `strings.Split(path, "/")`. -/
def splitSlash (s : String) : List String := (splitOnSep '/' s.data).map String.mk

/-- Embeds `strings.Split(content, "\n")`, the line splitter of
`generateUnifiedDiff`. -/
def splitLines (s : String) : List String := (splitOnSep '\n' s.data).map String.mk

/-- Embeds `strings.Join(parts, sep)`. -/
def joinWith (sep : String) : List String → String
  | [] => ""
  | [x] => x
  | x :: y :: rest => x ++ sep ++ joinWith sep (y :: rest)

/-- Concatenation of rendered hunk strings (the `result.WriteString` loop of
`generateUnifiedDiff`). -/
def concatStrings : List String → String
  | [] => ""
  | x :: xs => x ++ concatStrings xs

/-- The first suffix of the path segments that starts with a segment
literally equal to `"vendor"` followed by at least two more segments — the
loop condition `part == "vendor" && i+2 < len(parts)` of
`extractVendorPath`. -/
def vendorSuffix : List String → Option (List String)
  | [] => none
  | part :: rest =>
    if part = "vendor" ∧ 2 ≤ rest.length then some (part :: rest)
    else vendorSuffix rest

/-- Embeds `extractVendorPath` of `cmd/patchvendor.go`.  `filepath.ToSlash`
is the identity on a platform whose separator is already the forward slash,
so the normalization step is modelled as the identity and the fallback
returns the input path. -/
def extractVendorPath (fullPath : String) : String :=
  match vendorSuffix (splitSlash fullPath) with
  | some suffix => joinWith "/" suffix
  | none => fullPath

/-- Embeds `generateUnifiedDiff` of `cmd/patchvendor.go`: header lines from
the vendor path of the source path, then all hunks.  The function writes
the two header lines unconditionally, before knowing whether any hunk
exists. -/
def generateUnifiedDiff (sourcePath patchedPath sourceContent patchedContent : String) : String :=
  let vendorPath := extractVendorPath sourcePath
  let sourceLines := splitLines sourceContent
  let patchedLines := splitLines patchedContent
  let diffs := computeLineDiff sourceLines patchedLines
  let header := "--- a/" ++ vendorPath ++ "\n" ++ ("+++ b/" ++ vendorPath ++ "\n")
  header ++ concatStrings (generateHunks diffs sourceLines patchedLines)

/-- Pure core of `processSingleFile` of `cmd/patchvendor.go`: the patch
text it writes to the output file.  The Go function reads both files,
calls `generateUnifiedDiff` and writes the result unconditionally — it
contains no empty-source check and no identical-content check, and returns
an error only for file-system failures. -/
def processSingleFilePatch (sourcePath patchedPath sourceContent patchedContent : String) : String :=
  generateUnifiedDiff sourcePath patchedPath sourceContent patchedContent

lemma vendorSuffix_cons (a : String) (l : List String) :
    vendorSuffix (a :: l) =
      if a = "vendor" ∧ 2 ≤ l.length then some (a :: l) else vendorSuffix l := rfl

lemma vendorSuffix_append (pre rest : List String)
    (hpre : "vendor" ∉ pre) (hlen : 2 ≤ rest.length) :
    vendorSuffix (pre ++ "vendor" :: rest) = some ("vendor" :: rest) := by
  induction pre with
  | nil =>
    rw [List.nil_append, vendorSuffix_cons, if_pos ⟨rfl, hlen⟩]
  | cons a pre' ih =>
    have ha : ¬a = "vendor" := fun h => hpre (by simp [h])
    have hcond : ¬(a = "vendor" ∧ 2 ≤ (pre' ++ "vendor" :: rest).length) := fun h => ha h.1
    rw [List.cons_append, vendorSuffix_cons, if_neg hcond]
    exact ih (fun h => hpre (by simp [h]))

lemma vendorSuffix_none (parts : List String)
    (h : ∀ pre rest, parts = pre ++ "vendor" :: rest → rest.length < 2) :
    vendorSuffix parts = none := by
  induction parts with
  | nil => rfl
  | cons a rest' ih =>
    by_cases ha : a = "vendor" ∧ 2 ≤ rest'.length
    · exfalso
      have := h [] rest' (by simp [ha.1])
      omega
    · rw [vendorSuffix_cons, if_neg ha]
      apply ih
      intro pre rest hdecomp
      exact h (a :: pre) rest (by simp [hdecomp])

/-- C4 counterexample: the normalized path `"a/vendor/b"` contains a
segment literally equal to `"vendor"`, and the substring from that segment
onward is `"vendor/b"`, yet `extractVendorPath` leaves the path unchanged —
the code additionally requires at least two segments after `"vendor"`
(`i+2 < len(parts)`). -/
theorem extractVendorPath_counterexample :
    splitSlash "a/vendor/b" = ["a", "vendor", "b"] ∧
    joinWith "/" ["vendor", "b"] = "vendor/b" ∧
    extractVendorPath "a/vendor/b" = "a/vendor/b" ∧
    ("a/vendor/b" : String) ≠ "vendor/b" := by
  refine ⟨by decide, by decide, by decide, by decide⟩

/-- C4 amended: if the forward-slash-normalized source path contains a
segment literally equal to `"vendor"` that is followed by at least two
further segments, the header path equals the substring of the normalized
path from the first such segment onward, regardless of any prefix before
it; if no such segment exists (in particular when every `"vendor"` segment
has fewer than two segments after it), the header path equals the input
path unchanged. -/
theorem extractVendorPath_amended (path : String) :
    (∀ pre rest, splitSlash path = pre ++ "vendor" :: rest → "vendor" ∉ pre → 2 ≤ rest.length →
      extractVendorPath path = joinWith "/" ("vendor" :: rest)) ∧
    ((∀ pre rest, splitSlash path = pre ++ "vendor" :: rest → rest.length < 2) →
      extractVendorPath path = path) := by
  constructor
  · intro pre rest hsplit hpre hlen
    unfold extractVendorPath
    rw [hsplit, vendorSuffix_append pre rest hpre hlen]
  · intro h
    unfold extractVendorPath
    rw [vendorSuffix_none (splitSlash path) h]

/-- Witness for C4 amended at a concrete path with a prefix before the
vendor segment. -/
theorem extractVendorPath_amended_witness :
    extractVendorPath "a/vendor/b/c" = joinWith "/" ["vendor", "b", "c"] :=
  (extractVendorPath_amended "a/vendor/b/c").1 ["a"] ["b", "c"]
    (by decide) (by decide) (by decide)

/-- C2 (code bug): for identical non-empty contents `generateUnifiedDiff`
does not return the empty string — it returns the two header lines with no
hunks.  The repository's own test `TestGenerateUnifiedDiffNoDifference`
expects the empty string for identical files. -/
theorem generateUnifiedDiff_identical_not_empty :
    generateUnifiedDiff "f.php" "f.php" "a" "a" = "--- a/f.php\n+++ b/f.php\n" ∧
    ("--- a/f.php\n+++ b/f.php\n" : String) ≠ "" := by
  constructor
  · simp only [generateUnifiedDiff]
    rw [computeLineDiff_eval]
    decide
  · decide

/-- C3 (code bug): for an empty source text and non-empty patched text,
`processSingleFile` raises no Degenerate-Source error: its pure core
produces a non-empty patch text, which the function writes to the output
file unconditionally.  The repository's own test (`"Empty source file"` in
`TestProcessSingleFileWithRealFiles`) expects the error
`"source file is empty"` instead. -/
theorem processSingleFile_empty_source_writes_patch :
    processSingleFilePatch "f.php" "f.php" "" "x" =
      "--- a/f.php\n+++ b/f.php\n@@ -1,1 +1,1 @@\n-\n+x\n" ∧
    ("--- a/f.php\n+++ b/f.php\n@@ -1,1 +1,1 @@\n-\n+x\n" : String) ≠ "" := by
  constructor
  · simp only [processSingleFilePatch, generateUnifiedDiff]
    rw [computeLineDiff_eval]
    decide
  · decide

/-- Offsets `(i, j)` are a match of the two residual windows within the
50-line lookahead bound: both below 50, both in range, and the lines
equal. -/
def isMatch (s p : List String) (i j : Nat) : Prop :=
  i < 50 ∧ j < 50 ∧ i < s.length ∧ j < p.length ∧ s.getD i "" = p.getD j ""

instance (s p : List String) (i j : Nat) : Decidable (isMatch s p i j) := by
  unfold isMatch; infer_instance

/-- C6: if some offset pair within the 50-line lookahead window matches,
`findNextMatchingLine` returns the lexicographically least such pair
(smallest source offset, then smallest patch offset); otherwise it returns
the full remaining window lengths. -/
theorem findNextMatchingLine_correct (s p : List String) :
    ((∃ i j, isMatch s p i j) →
      isMatch s p (findNextMatchingLine s p).1 (findNextMatchingLine s p).2 ∧
      ∀ i j, isMatch s p i j →
        (findNextMatchingLine s p).1 < i ∨
        ((findNextMatchingLine s p).1 = i ∧ (findNextMatchingLine s p).2 ≤ j)) ∧
    ((¬∃ i j, isMatch s p i j) → findNextMatchingLine s p = (s.length, p.length)) := by
  constructor
  · rintro ⟨i, j, hi50, hj50, his, hjp, heq⟩
    obtain ⟨j', hj', _⟩ := scanPatch_complete (s.getD i "") 50 p j hj50 hjp heq.symm
    obtain ⟨ij, hij⟩ := scanSource_complete p 50 s i j' hi50 his hj'
    obtain ⟨i0, j0⟩ := ij
    have hfnl : findNextMatchingLine s p = (i0, j0) := by
      unfold findNextMatchingLine; rw [hij]
    obtain ⟨hi0f, hi0s, hsp0⟩ := scanSource_isSome_bounds p 50 s i0 j0 hij
    obtain ⟨hj0f, hj0p, hget0⟩ := scanPatch_isSome_bounds _ 50 p j0 hsp0
    rw [hfnl]
    constructor
    · exact ⟨hi0f, hj0f, hi0s, hj0p, hget0.symm⟩
    · intro i1 j1 hm1
      obtain ⟨hi150, hj150, hi1s, hj1p, heq1⟩ := hm1
      rcases Nat.lt_trichotomy i0 i1 with hlt | heqi | hgt
      · exact Or.inl hlt
      · subst heqi
        right
        refine ⟨rfl, ?_⟩
        by_contra hc
        push_neg at hc
        exact scanPatch_least _ 50 p j0 hsp0 j1 hc heq1.symm
      · exfalso
        have hnone := scanSource_least p 50 s i0 j0 hij i1 hgt
        obtain ⟨j2, hj2, _⟩ := scanPatch_complete (s.getD i1 "") 50 p j1 hj150 hj1p heq1.symm
        rw [hnone] at hj2
        cases hj2
  · intro hno
    cases hscan : scanSource p 50 s with
    | none =>
      unfold findNextMatchingLine
      rw [hscan]
    | some ij =>
      exfalso
      obtain ⟨i0, j0⟩ := ij
      obtain ⟨hi0f, hi0s, hsp0⟩ := scanSource_isSome_bounds p 50 s i0 j0 hscan
      obtain ⟨hj0f, hj0p, hget0⟩ := scanPatch_isSome_bounds _ 50 p j0 hsp0
      exact hno ⟨i0, j0, hi0f, hj0f, hi0s, hj0p, hget0.symm⟩

/-- Witness for C6 at a concrete input: `["u","a"]` vs `["v","w","a"]`
match at offsets `(1, 2)`, and the returned pair is itself a match. -/
theorem findNextMatchingLine_correct_witness :
    isMatch ["u", "a"] ["v", "w", "a"] (findNextMatchingLine ["u", "a"] ["v", "w", "a"]).1
      (findNextMatchingLine ["u", "a"] ["v", "w", "a"]).2 :=
  ((findNextMatchingLine_correct ["u", "a"] ["v", "w", "a"]).1 ⟨1, 2, by decide⟩).1
